import Mathlib

/-!
Verification of the `gitcat` repository (src/gitcat.py) against its
natural-language specification.  Python strings are modelled as lists of
characters; the catalogue file is modelled as its list of lines (the file
is the lines joined by a newline character, and all round-trip statements
carry newline-freeness hypotheses so that this identification is exact).
-/

/-- A Python string, modelled as its list of characters. -/
abbrev Str := List Char

/-- Conversion from a Lean string literal to the character-list model. -/
def str (s : String) : Str := s.toList

/-- The characters removed by Python `str.strip()` (ASCII whitespace). -/
def pyIsSpace (c : Char) : Bool :=
  c = ' ' || c = '\t' || c = '\n' || c = '\r' || c = '\x0b' || c = '\x0c'

/-- Python `str.lstrip()`. -/
def lstrip (s : Str) : Str := s.dropWhile pyIsSpace

/-- Python `str.rstrip()`. -/
def rstrip (s : Str) : Str := (s.reverse.dropWhile pyIsSpace).reverse

/-- Python `str.strip()`. -/
def strip (s : Str) : Str := lstrip (rstrip s)

/-- Whether the string begins with the three characters " = "
(the separator that `gitcat.py` splits catalogue lines on). -/
def sepAt (s : Str) : Bool := decide (s.take 3 = [' ', '=', ' '])

/-- Prepend a character to the first piece of a split result
(helper for `splitEq`, matching how `str.split` accumulates). -/
def consFirst (c : Char) : List Str → List Str
  | [] => [[c]]
  | h :: t => (c :: h) :: t

/-- Python `line.split(" = ")`: split on leftmost non-overlapping
occurrences of the separator " = ". -/
def splitEq : Str → List Str
  | ' ' :: '=' :: ' ' :: rest => [] :: splitEq rest
  | c :: rest => consFirst c (splitEq rest)
  | [] => [[]]

/-- Python `" = " in line`. -/
def hasSep : Str → Bool
  | [] => false
  | c :: rest => sepAt (c :: rest) || hasSep rest

/-- Python `s.startswith(p)`. -/
def startsWith (p s : Str) : Bool := decide (s.take p.length = p)

/-- Python `p in s` (substring containment). -/
def containsStr (p : Str) : Str → Bool
  | [] => decide (p = [])
  | c :: rest => startsWith p (c :: rest) || containsStr p rest

/-- Python `dire in self.catalogue` where the catalogue is an ordered
dictionary modelled as an association list. -/
def keyMem (k : Str) (cat : List (Str × Str)) : Bool :=
  cat.any fun p => decide (p.1 = k)

-- basic sanity of the string model
theorem str_append (a b : String) : str (a ++ b) = str a ++ str b := by
  simp [str, String.toList, String.data_append]

-- ### splitEq step lemmas

theorem splitEq_sep (rest : Str) :
    splitEq (' ' :: '=' :: ' ' :: rest) = [] :: splitEq rest := rfl

theorem splitEq_cons_ne (c : Char) (rest : Str) (h : sepAt (c :: rest) = false) :
    splitEq (c :: rest) = consFirst c (splitEq rest) := by
  rw [splitEq.eq_def]
  split
  · next r heq =>
    exfalso
    rw [show c :: rest = ' ' :: '=' :: ' ' :: r from heq] at h
    simp [sepAt] at h
  · next c' rest' hne h1 =>
    cases h1
    rfl
  · next heq => cases heq

theorem hasSep_cons (c : Char) (rest : Str) :
    hasSep (c :: rest) = (sepAt (c :: rest) || hasSep rest) := rfl

/-- A string with no occurrence of " = " is returned whole by the split. -/
theorem splitEq_of_not_hasSep : ∀ {s : Str}, hasSep s = false → splitEq s = [s] := by
  intro s
  induction s with
  | nil => intro _; rfl
  | cons c rest ih =>
    intro h
    rw [hasSep_cons] at h
    rcases Bool.or_eq_false_iff.mp h with ⟨h1, h2⟩
    rw [splitEq_cons_ne c rest h1, ih h2]
    rfl

/-- The head test only looks at the first three characters. -/
theorem sepAt_congr {s t : Str} (h : s.take 3 = t.take 3) : sepAt s = sepAt t := by
  simp [sepAt, h]

/-- Replacing a suffix that begins with a blank by another suffix that begins
with a blank cannot change whether the separator sits at this position. -/
theorem sepAt_append_space (c : Char) (a : Str) {z z' : Str}
    (hz : ∃ w, z = ' ' :: w) (hz' : ∃ w, z' = ' ' :: w) :
    sepAt (c :: (a ++ z)) = sepAt (c :: (a ++ z')) := by
  obtain ⟨w, rfl⟩ := hz
  obtain ⟨w', rfl⟩ := hz'
  match a with
  | [] =>
    simp only [List.nil_append, sepAt, List.take_succ_cons]
    cases w <;> cases w' <;> simp
  | [d] =>
    apply sepAt_congr
    simp
  | d :: e :: a' =>
    apply sepAt_congr
    simp

/-- Appending " = " ++ b to any string makes " = " occur in it. -/
theorem hasSep_append_sep (a b : Str) :
    hasSep (a ++ (' ' :: '=' :: ' ' :: b)) = true := by
  induction a with
  | nil => simp [hasSep_cons, sepAt]
  | cons c a' ih =>
    rw [List.cons_append, hasSep_cons, ih, Bool.or_true]

/-- Key splitting lemma: if `a` has no " = " occurrence, even when followed by
one further blank, then splitting `a ++ " = " ++ b` yields `a` as the first
piece and continues in `b`. -/
theorem splitEq_append_sep : ∀ (a : Str) (b : Str),
    hasSep (a ++ [' ']) = false →
    splitEq (a ++ (' ' :: '=' :: ' ' :: b)) = a :: splitEq b := by
  intro a
  induction a with
  | nil => intro b _; exact splitEq_sep b
  | cons c a' ih =>
    intro b h
    rw [List.cons_append, hasSep_cons] at h
    rcases Bool.or_eq_false_iff.mp h with ⟨h1, h2⟩
    have hsep : sepAt (c :: (a' ++ (' ' :: '=' :: ' ' :: b))) = false := by
      rw [sepAt_append_space c a' ⟨_, rfl⟩ ⟨[], rfl⟩]
      exact h1
    rw [List.cons_append, splitEq_cons_ne _ _ hsep, ih b h2]
    rfl

/-- Padding with blanks cannot create an occurrence of " = " if even one
blank does not. -/
theorem hasSep_append_replicate : ∀ (a : Str), hasSep (a ++ [' ']) = false →
    ∀ (k : Nat), hasSep (a ++ List.replicate (k + 1) ' ') = false := by
  intro a
  induction a with
  | nil =>
    intro _ k
    induction k with
    | zero => decide
    | succ n ihn =>
      rw [List.nil_append] at ihn ⊢
      rw [List.replicate_succ, hasSep_cons, ihn, Bool.or_false]
      simp only [sepAt, List.take_succ_cons]
      cases hn : List.replicate (n + 1) ' ' with
      | nil => simp
      | cons x t =>
        have hx : x = ' ' := List.eq_of_mem_replicate (by rw [hn]; exact List.mem_cons_self x t)
        subst hx
        simp
  | cons c a' ih =>
    intro h k
    rw [List.cons_append, hasSep_cons] at h
    rcases Bool.or_eq_false_iff.mp h with ⟨h1, h2⟩
    rw [List.cons_append, hasSep_cons]
    have hsep : sepAt (c :: (a' ++ List.replicate (k + 1) ' ')) = false := by
      rw [sepAt_append_space c a' ⟨_, List.replicate_succ ' ' k⟩ ⟨[], rfl⟩]
      exact h1
    rw [hsep, ih h2 k]
    rfl

-- ### strip lemmas

theorem dropWhile_head_false (p : Char → Bool) : ∀ (l : Str) (c : Char),
    (l.dropWhile p).head? = some c → p c = false := by
  intro l
  induction l with
  | nil => intro c h; simp [List.dropWhile] at h
  | cons x t ih =>
    intro c h
    cases hx : p x with
    | true =>
      rw [List.dropWhile_cons, if_pos hx] at h
      exact ih c h
    | false =>
      rw [List.dropWhile_cons, if_neg (by simp [hx])] at h
      simp at h
      exact h ▸ hx

theorem dropWhile_dropWhile (p : Char → Bool) (l : Str) :
    (l.dropWhile p).dropWhile p = l.dropWhile p := by
  induction l with
  | nil => rfl
  | cons x t ih =>
    cases hx : p x with
    | true => rw [List.dropWhile_cons, if_pos hx, ih]
    | false =>
      rw [List.dropWhile_cons, if_neg (by simp [hx]),
        List.dropWhile_cons, if_neg (by simp [hx])]

theorem mem_dropWhile {c : Char} {p : Char → Bool} (hc : p c = false) :
    ∀ {l : Str}, c ∈ l → c ∈ l.dropWhile p := by
  intro l
  induction l with
  | nil => intro h; exact absurd h (List.not_mem_nil c)
  | cons x t ih =>
    intro h
    cases hx : p x with
    | true =>
      rw [List.dropWhile_cons, if_pos hx]
      rcases List.mem_cons.mp h with rfl | hmem
      · rw [hx] at hc; cases hc
      · exact ih hmem
    | false =>
      rw [List.dropWhile_cons, if_neg (by simp [hx])]
      exact h

/-- Characters that are not whitespace survive Python strip. -/
theorem mem_strip {c : Char} (hc : pyIsSpace c = false) {l : Str} (h : c ∈ l) :
    c ∈ strip l := by
  unfold strip lstrip rstrip
  apply mem_dropWhile hc
  rw [List.mem_reverse]
  apply mem_dropWhile hc
  rw [List.mem_reverse]
  exact h

/-- A line containing " = " contains the character "=". -/
theorem hasSep_imp_mem : ∀ {l : Str}, hasSep l = true → '=' ∈ l := by
  intro l
  induction l with
  | nil => intro h; cases h
  | cons c t ih =>
    intro h
    rw [hasSep_cons] at h
    rcases (Bool.or_eq_true _ _).mp h with hs | ht
    · have h3 : (c :: t).take 3 = [' ', '=', ' '] := of_decide_eq_true hs
      rw [List.take_succ_cons] at h3
      have : '=' ∈ c :: t.take 2 := by rw [h3]; simp
      rcases List.mem_cons.mp this with he | he
      · exact he ▸ List.mem_cons_self _ _
      · exact List.mem_cons_of_mem c (List.take_subset 2 t he)
    · exact List.mem_cons_of_mem c (ih ht)

/-- A line containing " = " never strips to the marker "Catalogue:". -/
theorem strip_ne_marker {l : Str} (h : hasSep l = true) :
    strip l ≠ str "Catalogue:" := by
  intro hmark
  have hmem : '=' ∈ strip l := mem_strip (by decide) (hasSep_imp_mem h)
  rw [hmark] at hmem
  exact absurd hmem (by decide)

theorem lstrip_eq_self {l : Str} (h : ∀ c, l.head? = some c → pyIsSpace c = false) :
    lstrip l = l := by
  cases l with
  | nil => rfl
  | cons x t =>
    unfold lstrip
    rw [List.dropWhile_cons, if_neg (by simp [h x rfl])]

theorem rstrip_eq_self {l : Str} (h : ∀ c, l.getLast? = some c → pyIsSpace c = false) :
    rstrip l = l := by
  unfold rstrip
  have h2 : l.reverse.dropWhile pyIsSpace = l.reverse := by
    cases hl : l.reverse with
    | nil => rfl
    | cons x t =>
      have hx : pyIsSpace x = false := by
        apply h
        rw [← List.head?_reverse, hl]
        rfl
      rw [List.dropWhile_cons, if_neg (by simp [hx])]
  rw [h2, List.reverse_reverse]

theorem strip_idem (s : Str) : strip (strip s) = strip s := by
  have h1 : rstrip (strip s) = strip s := by
    apply rstrip_eq_self
    intro c hc
    have hne : lstrip (rstrip s) ≠ [] := by
      intro hnil
      rw [show strip s = lstrip (rstrip s) from rfl, hnil] at hc
      cases hc
    have hsuf : lstrip (rstrip s) <:+ rstrip s := List.dropWhile_suffix pyIsSpace
    obtain ⟨t, ht⟩ := hsuf
    have hlast : (rstrip s).getLast? = some c := by
      rw [← ht, List.getLast?_append]
      rw [show strip s = lstrip (rstrip s) from rfl] at hc
      rw [hc]
      rfl
    have hrev : (s.reverse.dropWhile pyIsSpace).head? = some c := by
      rw [show rstrip s = (s.reverse.dropWhile pyIsSpace).reverse from rfl] at hlast
      rwa [List.getLast?_reverse] at hlast
    exact dropWhile_head_false pyIsSpace _ c hrev
  have h2 : lstrip (strip s) = strip s := by
    rw [show strip s = lstrip (rstrip s) from rfl]
    exact dropWhile_dropWhile pyIsSpace (rstrip s)
  show lstrip (rstrip (strip s)) = strip s
  rw [h1, h2]

theorem rstrip_append_replicate (a : Str) (k : Nat) :
    rstrip (a ++ List.replicate k ' ') = rstrip a := by
  unfold rstrip
  rw [List.reverse_append, List.reverse_replicate]
  congr 1
  induction k with
  | zero => rfl
  | succ n ih =>
    rw [List.replicate_succ, List.cons_append, List.dropWhile_cons,
      if_pos (by decide)]
    exact ih

theorem strip_append_replicate (a : Str) (k : Nat) :
    strip (a ++ List.replicate k ' ') = strip a := by
  unfold strip
  rw [rstrip_append_replicate]

-- ## The catalogue reader: GitCat.read_catalogue (src/gitcat.py, lines 643-688)

/-- The two ways reading the gitcatrc file can abort:
`unpack` models the uncaught ValueError raised by
`dire, rep = line.split(" = ")` when the line holds " = " more than once
(neither FileNotFoundError nor OSError, so it is not caught);
`duplicate dire` models `error_message(f"... appears in the catalogue more
than once!")`, which prints the offending name and exits. -/
inductive ReadErr
  | unpack
  | duplicate (dire : Str)
deriving DecidableEq

/-- The state built by read_catalogue: the `reading_settings` flag, the
settings assignments performed on lines before the "Catalogue:" marker
(recorded as ordered name/value pairs; in the source they become
`setattr` calls on the GitCat object or its options, or a warning for an
unknown name — none of which touches the catalogue), and the ordered
catalogue dictionary, modelled as an association list since a Python dict
preserves insertion order. -/
structure CatState where
  readingSettings : Bool
  settingsPairs : List (Str × Str)
  catalogue : List (Str × Str)
deriving DecidableEq

/-- Processing of one line after the marker test: mirrors the body
`if " = " in line: dire, rep = line.split(" = "); dire = dire.strip();
rep = rep.strip(); ...` of read_catalogue.  A split with more than two
pieces raises ValueError (`ReadErr.unpack`); in the catalogue section a
repeated key raises the duplicate error; otherwise the pair is appended
(the catalogue value is `rep.strip()` applied to the already stripped
`rep`). -/
def readLineAux (st1 : CatState) (line : Str) : Except ReadErr CatState :=
  if hasSep line then
    match splitEq line with
    | [d, r] =>
      if st1.readingSettings then
        Except.ok ⟨st1.readingSettings, st1.settingsPairs ++ [(strip d, strip r)], st1.catalogue⟩
      else if keyMem (strip d) st1.catalogue then
        Except.error (ReadErr.duplicate (strip d))
      else
        Except.ok ⟨st1.readingSettings, st1.settingsPairs,
          st1.catalogue ++ [(strip d, strip (strip r))]⟩
    | _ => Except.error ReadErr.unpack
  else Except.ok st1

/-- One iteration of the `for line in catalogue` loop: first
`if line.strip() == "Catalogue:": reading_settings = False`, then the
" = " processing on the same line. -/
def readLine (st : CatState) (line : Str) : Except ReadErr CatState :=
  readLineAux
    (if strip line = str "Catalogue:" then ⟨false, st.settingsPairs, st.catalogue⟩ else st)
    line

/-- The whole loop over the lines of the file, stopping at the first error. -/
def readLines : CatState → List Str → Except ReadErr CatState
  | st, [] => Except.ok st
  | st, l :: ls =>
    match readLine st l with
    | Except.ok st' => readLines st' ls
    | Except.error e => Except.error e

/-- read_catalogue starts with `self.catalogue = {}` and
`reading_settings = True`. -/
def readCatalogue (lines : List Str) : Except ReadErr CatState :=
  readLines ⟨true, [], []⟩ lines

-- ## Claim-side description of the catalogue (from the words of the spec)

/-- Modelled from the spec (claim C1): walking the lines, a line strips to
"Catalogue:" switches to the catalogue section; each line that splits at
" = " into exactly a before and an after part contributes the pair
(before stripped, after stripped) to the settings (before the marker) or
to the catalogue (at or after the marker); all other lines are ignored.
Returns (settings pairs, catalogue pairs). -/
def specScan : Bool → List Str → List (Str × Str) × List (Str × Str)
  | _, [] => ([], [])
  | afterMarker, l :: ls =>
    let am := afterMarker || decide (strip l = str "Catalogue:")
    let rest := specScan am ls
    match splitEq l with
    | [d, r] =>
      if am then (rest.1, (strip d, strip r) :: rest.2)
      else ((strip d, strip r) :: rest.1, rest.2)
    | _ => rest

/-- The catalogue described by the spec sentence of claim C1. -/
def catalogueSpec (lines : List Str) : List (Str × Str) := (specScan false lines).2

/-- The settings assignments described by the spec sentence of claim C1. -/
def settingsSpec (lines : List Str) : List (Str × Str) := (specScan false lines).1

-- ### step lemmas for the reader

theorem readLines_nil (st : CatState) : readLines st [] = Except.ok st := rfl

theorem readLines_cons (st : CatState) (l : Str) (ls : List Str) :
    readLines st (l :: ls) = match readLine st l with
      | Except.ok st' => readLines st' ls
      | Except.error e => Except.error e := rfl

theorem readLines_append_ok {st st' : CatState} {xs : List Str}
    (h : readLines st xs = Except.ok st') (ys : List Str) :
    readLines st (xs ++ ys) = readLines st' ys := by
  induction xs generalizing st with
  | nil => rw [readLines_nil] at h; cases h; rfl
  | cons l ls ih =>
    rw [List.cons_append, readLines_cons]
    rw [readLines_cons] at h
    cases hr : readLine st l with
    | ok st₁ => rw [hr] at h; exact ih h
    | error e => rw [hr] at h; exact Except.noConfusion h

theorem readLine_marker {st : CatState} {l : Str} (hm : strip l = str "Catalogue:") :
    readLine st l = Except.ok ⟨false, st.settingsPairs, st.catalogue⟩ := by
  have hnosep : hasSep l = false := by
    cases hh : hasSep l
    · rfl
    · exact absurd hm (strip_ne_marker hh)
  rw [readLine, if_pos hm]
  simp [readLineAux, hnosep]

theorem readLine_skip {st : CatState} {l : Str} (hm : ¬ strip l = str "Catalogue:")
    (hnosep : hasSep l = false) : readLine st l = Except.ok st := by
  rw [readLine, if_neg hm]
  simp [readLineAux, hnosep]

theorem readLine_pair {st : CatState} {l d r : Str} (hm : ¬ strip l = str "Catalogue:")
    (hs : hasSep l = true) (hsp : splitEq l = [d, r]) :
    readLine st l =
      if st.readingSettings then
        Except.ok ⟨st.readingSettings, st.settingsPairs ++ [(strip d, strip r)], st.catalogue⟩
      else if keyMem (strip d) st.catalogue then
        Except.error (ReadErr.duplicate (strip d))
      else Except.ok ⟨st.readingSettings, st.settingsPairs,
        st.catalogue ++ [(strip d, strip (strip r))]⟩ := by
  rw [readLine, if_neg hm]
  simp [readLineAux, hs, hsp]

theorem specScan_cons_marker {l : Str} (b : Bool) (ls : List Str)
    (hm : strip l = str "Catalogue:") (hone : splitEq l = [l]) :
    specScan b (l :: ls) = specScan true ls := by
  simp [specScan, hm, hone]

theorem specScan_cons_skip {l : Str} (b : Bool) (ls : List Str)
    (hm : ¬ strip l = str "Catalogue:") (hone : splitEq l = [l]) :
    specScan b (l :: ls) = specScan b ls := by
  simp [specScan, hm, hone]

theorem specScan_cons_pair {l : Str} (b : Bool) (ls : List Str) {d r : Str}
    (hm : ¬ strip l = str "Catalogue:") (hsp : splitEq l = [d, r]) :
    specScan b (l :: ls) =
      if b then ((specScan b ls).1, (strip d, strip r) :: (specScan b ls).2)
      else ((strip d, strip r) :: (specScan b ls).1, (specScan b ls).2) := by
  cases b <;> simp [specScan, hm, hsp]

/-- Invariant of the reading loop: on success the catalogue and the settings
grow by exactly what the spec-side scan describes. -/
theorem readLines_ok_spec : ∀ (lines : List Str) (st₀ st : CatState),
    readLines st₀ lines = Except.ok st →
    st.catalogue = st₀.catalogue ++ (specScan (!st₀.readingSettings) lines).2 ∧
    st.settingsPairs = st₀.settingsPairs ++ (specScan (!st₀.readingSettings) lines).1 := by
  intro lines
  induction lines with
  | nil =>
    intro st₀ st h
    rw [readLines_nil] at h
    cases h
    simp [specScan]
  | cons l ls ih =>
    intro st₀ st h
    rw [readLines_cons] at h
    cases hr : readLine st₀ l with
    | error e => rw [hr] at h; cases h
    | ok st₁ =>
      rw [hr] at h
      have h' : readLines st₁ ls = Except.ok st := h
      by_cases hm : strip l = str "Catalogue:"
      · have hnosep : hasSep l = false := by
          cases hh : hasSep l
          · rfl
          · exact absurd hm (strip_ne_marker hh)
        rw [readLine_marker hm] at hr
        cases hr
        obtain ⟨hc, hsp⟩ := ih _ st h'
        rw [specScan_cons_marker _ ls hm (splitEq_of_not_hasSep hnosep)]
        exact ⟨by simpa using hc, by simpa using hsp⟩
      · cases hs : hasSep l with
        | false =>
          rw [readLine_skip hm hs] at hr
          cases hr
          obtain ⟨hc, hsp⟩ := ih _ st h'
          rw [specScan_cons_skip _ ls hm (splitEq_of_not_hasSep hs)]
          exact ⟨hc, hsp⟩
        | true =>
          rcases hspl : splitEq l with _ | ⟨d, _ | ⟨r, _ | ⟨x, tail⟩⟩⟩
          · rw [readLine, if_neg hm] at hr
            simp [readLineAux, hs, hspl] at hr
          · rw [readLine, if_neg hm] at hr
            simp [readLineAux, hs, hspl] at hr
          · -- the two-piece case
            rw [readLine_pair hm hs hspl] at hr
            rw [specScan_cons_pair (!st₀.readingSettings) ls hm hspl]
            cases hrs : st₀.readingSettings with
            | true =>
              rw [if_pos (by rw [hrs])] at hr
              cases hr
              obtain ⟨hc, hsp⟩ := ih _ st h'
              constructor
              · rw [hc]; simp [hrs]
              · rw [hsp]; simp [hrs, List.append_assoc]
            | false =>
              rw [if_neg (by rw [hrs]; exact Bool.false_ne_true)] at hr
              by_cases hk : keyMem (strip d) st₀.catalogue
              · rw [if_pos hk] at hr; cases hr
              · rw [if_neg hk] at hr
                cases hr
                obtain ⟨hc, hsp⟩ := ih _ st h'
                constructor
                · rw [hc]; simp [hrs, strip_idem, List.append_assoc]
                · rw [hsp]; simp [hrs]
          · rw [readLine, if_neg hm] at hr
            simp [readLineAux, hs, hspl] at hr

theorem keyMem_iff {k : Str} {cat : List (Str × Str)} :
    keyMem k cat = true ↔ k ∈ cat.map Prod.fst := by
  simp only [keyMem, List.any_eq_true, decide_eq_true_eq, List.mem_map]

/-- Invariant: the reading loop only appends keys that pass the membership
guard, so distinctness of the catalogue keys is preserved. -/
theorem readLines_ok_nodup : ∀ (lines : List Str) (st₀ st : CatState),
    readLines st₀ lines = Except.ok st →
    (st₀.catalogue.map Prod.fst).Nodup → (st.catalogue.map Prod.fst).Nodup := by
  intro lines
  induction lines with
  | nil =>
    intro st₀ st h hnd
    rw [readLines_nil] at h
    cases h
    exact hnd
  | cons l ls ih =>
    intro st₀ st h hnd
    rw [readLines_cons] at h
    cases hr : readLine st₀ l with
    | error e => rw [hr] at h; exact Except.noConfusion h
    | ok st₁ =>
      rw [hr] at h
      have h' : readLines st₁ ls = Except.ok st := h
      refine ih _ st h' ?_
      by_cases hm : strip l = str "Catalogue:"
      · rw [readLine_marker hm] at hr
        cases hr
        exact hnd
      · cases hs : hasSep l with
        | false =>
          rw [readLine_skip hm hs] at hr
          cases hr
          exact hnd
        | true =>
          rcases hspl : splitEq l with _ | ⟨d, _ | ⟨r, _ | ⟨x, tail⟩⟩⟩
          · rw [readLine, if_neg hm] at hr
            simp [readLineAux, hs, hspl] at hr
          · rw [readLine, if_neg hm] at hr
            simp [readLineAux, hs, hspl] at hr
          · rw [readLine_pair hm hs hspl] at hr
            cases hrs : st₀.readingSettings with
            | true =>
              rw [if_pos (by rw [hrs])] at hr
              cases hr
              exact hnd
            | false =>
              rw [if_neg (by rw [hrs]; exact Bool.false_ne_true)] at hr
              by_cases hk : keyMem (strip d) st₀.catalogue
              · rw [if_pos hk] at hr; exact Except.noConfusion hr
              · rw [if_neg hk] at hr
                cases hr
                have hnm : strip d ∉ st₀.catalogue.map Prod.fst := fun hmem =>
                  hk (keyMem_iff.mpr hmem)
                simp only [List.map_append, List.map_cons, List.map_nil]
                rw [List.nodup_append]
                refine ⟨hnd, List.nodup_singleton _, ?_⟩
                intro a ha hb
                rw [List.mem_singleton] at hb
                exact hnm (hb ▸ ha)
          · rw [readLine, if_neg hm] at hr
            simp [readLineAux, hs, hspl] at hr

/-- Helper shared by the claims on read_catalogue: a successful load yields
exactly the spec-described catalogue and settings. -/
theorem readCatalogue_ok_eq {lines : List Str} {st : CatState}
    (h : readCatalogue lines = Except.ok st) :
    st.catalogue = catalogueSpec lines ∧ st.settingsPairs = settingsSpec lines := by
  have hmain := readLines_ok_spec lines ⟨true, [], []⟩ st h
  simpa [catalogueSpec, settingsSpec] using hmain

-- ## Claim C1

/-- Claim C1 (amended): for every catalogue file that read_catalogue loads
successfully, the built catalogue consists of exactly the pairs (text
before the separator, stripped; text after it, stripped) of the lines at
or after the "Catalogue:" marker that split at " = " into two pieces, in
order; lines without " = " are ignored, and " = " lines before the marker
become settings assignments, not catalogue entries.  (The amendment: a
line containing " = " more than once does not contribute an entry — it
makes read_catalogue fail with an uncaught unpacking error, see the
counterexample — and a run that fails builds no catalogue at all.) -/
theorem read_catalogue_builds_spec_catalogue (lines : List Str) (st : CatState)
    (h : readCatalogue lines = Except.ok st) :
    st.catalogue = catalogueSpec lines ∧ st.settingsPairs = settingsSpec lines :=
  readCatalogue_ok_eq h

/-- Counterexample to claim C1 as stated: on the file with marker line "Catalogue:" and the
line "a = b = c" — which contains " = " — read_catalogue does not map any
key at all: `dire, rep = line.split(" = ")` gets three pieces and raises
ValueError (uncaught, since only FileNotFoundError and OSError are
handled), so the claim as stated is false for this file. -/
theorem read_catalogue_double_separator_fails :
    readCatalogue [str "Catalogue:", str "a = b = c"] = Except.error ReadErr.unpack := by
  rfl

/-- Concrete input for the C1 witness. -/
def c1Lines : List Str :=
  [str "# gitcat config", str "prefix = /tmp/x", str "Catalogue:",
   str "dir1 = url1", str "no separator here", str "dir2 = url2"]

/-- Witness for claim C1: the amended theorem applied to a concrete file. -/
theorem read_catalogue_builds_spec_catalogue_witness :
    readCatalogue c1Lines = Except.ok
      ⟨false, [(str "prefix", str "/tmp/x")],
       [(str "dir1", str "url1"), (str "dir2", str "url2")]⟩ ∧
    (⟨false, [(str "prefix", str "/tmp/x")],
       [(str "dir1", str "url1"), (str "dir2", str "url2")]⟩ : CatState).catalogue
        = catalogueSpec c1Lines :=
  ⟨rfl, (read_catalogue_builds_spec_catalogue c1Lines _ rfl).1⟩

-- ## Claim C4

/-- Claim C4: a successfully loaded catalogue always has pairwise distinct
keys, and when the catalogue section repeats a directory name the load
never succeeds — read_catalogue stops with an error (the error value
`ReadErr.duplicate dire` carries the repeated name, matching the message
"... appears in the catalogue more than once!" printed by error_message
before sys.exit). -/
theorem loaded_catalogue_keys_distinct (lines : List Str) :
    (∀ st : CatState, readCatalogue lines = Except.ok st →
      (st.catalogue.map Prod.fst).Nodup) ∧
    (¬ ((catalogueSpec lines).map Prod.fst).Nodup →
      ∀ st : CatState, readCatalogue lines ≠ Except.ok st) := by
  have h1 : ∀ st : CatState, readCatalogue lines = Except.ok st →
      (st.catalogue.map Prod.fst).Nodup := by
    intro st h
    exact readLines_ok_nodup lines ⟨true, [], []⟩ st h (by simp)
  refine ⟨h1, ?_⟩
  intro hnd st h
  apply hnd
  rw [← (readCatalogue_ok_eq h).1]
  exact h1 st h

/-- Witness for claim C4: on a concrete file whose catalogue section repeats the
name "a", the load does not succeed. -/
theorem loaded_catalogue_keys_distinct_witness :
    readCatalogue [str "Catalogue:", str "a = 1", str "a = 2"] ≠
      Except.ok ⟨false, [], [(str "a", str "1")]⟩ :=
  (loaded_catalogue_keys_distinct [str "Catalogue:", str "a = 1", str "a = 2"]).2
    (by decide) ⟨false, [], [(str "a", str "1")]⟩

-- ## Saving the catalogue: GitCat.save_catalogue (lines 690-698),
-- GitCat.list_catalogue (lines 570-581), Settings.save_settings (lines 326-336)

/-- Python format "{dire:<{max}}": pad on the right with blanks to width
`maxw` (no padding when the string is at least that long). -/
def padTo (maxw : Nat) (s : Str) : Str := s ++ List.replicate (maxw - s.length) ' '

/-- `self.max` as computed at the end of read_catalogue: one more than the
longest key, or 0 for the empty catalogue (the ValueError branch). -/
def maxKeyLen (cat : List (Str × Str)) : Nat :=
  match cat with
  | [] => 0
  | _ => (cat.map fun p => p.1.length).foldl max 0 + 1

/-- One line of list_catalogue(listing=True): the format string
"{dire:<{max}} {sep} {rep}" with sep = "=" (listing=True short-circuits the
is_git_repository call, so no git runs during a save). -/
def entryLine (maxw : Nat) (p : Str × Str) : Str :=
  padTo maxw p.1 ++ (' ' :: '=' :: ' ' :: p.2)

/-- The lines save_catalogue writes: the two comment lines, then
save_settings — which is "\nprefix = {prefix}\n\n" when the Settings
prefix differs from HOME and "" otherwise — then "Catalogue:" followed by
the entry lines of list_catalogue(listing=True) and a final newline (for
an empty catalogue this leaves one empty line).  No repository filter is
in effect, so every catalogue entry is listed.  The file on disk is these
lines joined with newlines, an exact correspondence as long as keys, URLs
and the prefix contain no newline. -/
def saveLines (maxw : Nat) (cat : List (Str × Str)) (pv home : Str) : List Str :=
  [str "# List of git repositories to sync using gitcat",
   str "# Do not remove the \"Catalogue:\" line below!"]
  ++ (if pv ≠ home then [[], str "prefix = " ++ pv, []] else [])
  ++ [str "Catalogue:"]
  ++ (if cat.isEmpty then [[]] else cat.map (entryLine maxw))

/-- The prefix value in effect after a read: read_catalogue performs
setattr(self, "prefix", value) for each settings line whose key is
"prefix" (GitCat has that attribute, initialised from the command line
before the read), so the last assignment wins and `initial` is the value
from before the read. -/
def prefixAfterRead (initial : Str) (st : CatState) : Str :=
  st.settingsPairs.foldl (fun acc p => if p.1 = str "prefix" then p.2 else acc) initial

/-- Conditions on a catalogue entry under which one line of the file
represents it exactly: name and URL are whitespace-trimmed, contain no
" = ", the name does not end in " =" (padding would complete a separator),
and neither contains a newline. -/
def entryOk (p : Str × Str) : Prop :=
  strip p.1 = p.1 ∧ hasSep (p.1 ++ [' ']) = false ∧ '\n' ∉ p.1 ∧
  strip p.2 = p.2 ∧ hasSep p.2 = false ∧ '\n' ∉ p.2

instance (p : Str × Str) : Decidable (entryOk p) := by
  unfold entryOk
  infer_instance

theorem readLines_cons_ok {st : CatState} (st₁ : CatState) {l : Str}
    (h : readLine st l = Except.ok st₁) (ls : List Str) :
    readLines st (l :: ls) = readLines st₁ ls := by
  rw [readLines_cons, h]

/-- Reading back the written entry lines recovers exactly the entries. -/
theorem readLines_entries (maxw : Nat) : ∀ (cat : List (Str × Str)) (st : CatState),
    st.readingSettings = false →
    (∀ p ∈ cat, entryOk p) →
    ((st.catalogue ++ cat).map Prod.fst).Nodup →
    readLines st (cat.map (entryLine maxw)) =
      Except.ok ⟨false, st.settingsPairs, st.catalogue ++ cat⟩ := by
  intro cat
  induction cat with
  | nil =>
    intro st hrs hok hnd
    cases st with
    | mk rs sp c =>
      simp only at hrs
      subst hrs
      simp [readLines_nil]
  | cons p rest ih =>
    intro st hrs hok hnd
    obtain ⟨hs1, hs2, _, hs3, hs4, _⟩ := hok p (List.mem_cons_self p rest)
    have hpad : hasSep (padTo maxw p.1 ++ [' ']) = false := by
      unfold padTo
      rw [List.append_assoc,
        show List.replicate (maxw - p.1.length) ' ' ++ [' ']
          = List.replicate ((maxw - p.1.length) + 1) ' ' from
          (List.replicate_succ' (maxw - p.1.length) ' ').symm]
      exact hasSep_append_replicate p.1 hs2 _
    have hsplit : splitEq (entryLine maxw p) = [padTo maxw p.1, p.2] := by
      unfold entryLine
      rw [splitEq_append_sep _ _ hpad, splitEq_of_not_hasSep hs4]
    have hsep : hasSep (entryLine maxw p) = true := by
      unfold entryLine
      exact hasSep_append_sep _ _
    have hm : ¬ strip (entryLine maxw p) = str "Catalogue:" := strip_ne_marker hsep
    have hstripd : strip (padTo maxw p.1) = p.1 := by
      unfold padTo
      rw [strip_append_replicate, hs1]
    have hk : keyMem (strip (padTo maxw p.1)) st.catalogue = false := by
      rw [hstripd, Bool.eq_false_iff]
      intro hkt
      have hmem := keyMem_iff.mp hkt
      rw [List.map_append] at hnd
      have hd := (List.nodup_append.mp hnd).2.2
      exact hd hmem (by simp)
    rw [List.map_cons,
      readLines_cons_ok ⟨st.readingSettings, st.settingsPairs,
        st.catalogue ++ [(strip (padTo maxw p.1), strip (strip p.2))]⟩
      (by rw [readLine_pair hm hsep hsplit, if_neg (by rw [hrs]; exact Bool.false_ne_true),
        if_neg (by rw [hk]; exact Bool.false_ne_true)])]
    rw [hstripd, strip_idem, hs3]
    have hout := ih ⟨st.readingSettings, st.settingsPairs, st.catalogue ++ [p]⟩ hrs
      (fun q hq => hok q (List.mem_cons_of_mem p hq))
      (by simpa [List.append_assoc] using hnd)
    simp only at hout
    rw [show (p.1, p.2) = p from rfl, hout]
    simp [List.append_assoc]

-- ## Claim C2

/-- Claim C2 (amended): for every catalogue whose directory names and URLs
are whitespace-trimmed, contain no newline and no " = " substring, with
pairwise distinct names none of which ends in " =" (so that padding
cannot complete a separator), and whose saved prefix value is likewise
trimmed, newline-free and " = "-free, saving with save_catalogue and then
reading the written file with read_catalogue restores exactly the same
ordered directory-to-URL mapping and the same prefix setting; the file
written last fully determines the loaded state.  This holds for every
padding width, so a stale self.max is harmless. -/
theorem save_then_read_restores_catalogue
    (cat : List (Str × Str)) (pv home : Str) (maxw : Nat)
    (hok : ∀ p ∈ cat, entryOk p)
    (hnd : (cat.map Prod.fst).Nodup)
    (hpv : strip pv = pv) (hpsep : hasSep pv = false) (hpn : '\n' ∉ pv) :
    readCatalogue (saveLines maxw cat pv home) =
      Except.ok ⟨false, (if pv ≠ home then [(str "prefix", pv)] else []), cat⟩ ∧
    prefixAfterRead home
      ⟨false, (if pv ≠ home then [(str "prefix", pv)] else []), cat⟩ = pv := by
  have hentries : ∀ sp : List (Str × Str),
      readLines ⟨false, sp, []⟩
        (if cat.isEmpty then [[]] else cat.map (entryLine maxw)) =
        Except.ok ⟨false, sp, cat⟩ := by
    intro sp
    cases cat with
    | nil => rfl
    | cons p rest =>
      rw [if_neg (by simp)]
      have h := readLines_entries maxw (p :: rest) ⟨false, sp, []⟩ rfl hok
        (by simpa using hnd)
      simpa using h
  constructor
  · by_cases hh : pv = home
    · have hpre : readLines (⟨true, [], []⟩ : CatState)
          [str "# List of git repositories to sync using gitcat",
           str "# Do not remove the \"Catalogue:\" line below!",
           str "Catalogue:"] = Except.ok ⟨false, [], []⟩ := by rfl
      rw [readCatalogue, saveLines, if_neg (not_not_intro hh)]
      simp only [List.nil_append, List.cons_append, List.append_nil]
      rw [show str "# List of git repositories to sync using gitcat" ::
            str "# Do not remove the \"Catalogue:\" line below!" ::
            str "Catalogue:" ::
            (if cat.isEmpty then [[]] else cat.map (entryLine maxw)) =
          [str "# List of git repositories to sync using gitcat",
           str "# Do not remove the \"Catalogue:\" line below!",
           str "Catalogue:"] ++
            (if cat.isEmpty then [[]] else cat.map (entryLine maxw)) from rfl]
      rw [readLines_append_ok hpre]
      rw [if_neg (not_not_intro hh)]
      exact hentries []
    · have hpl : readLine ⟨true, [], []⟩ (str "prefix = " ++ pv) =
          Except.ok ⟨true, [(str "prefix", pv)], []⟩ := by
        have heq : str "prefix = " ++ pv = str "prefix" ++ (' ' :: '=' :: ' ' :: pv) := by
          rw [show str "prefix = " = str "prefix" ++ [' ', '=', ' '] from rfl,
            List.append_assoc]
          rfl
        have hsepp : hasSep (str "prefix = " ++ pv) = true := by
          rw [heq]; exact hasSep_append_sep _ _
        have hsplitp : splitEq (str "prefix = " ++ pv) = [str "prefix", pv] := by
          rw [heq, splitEq_append_sep _ _ (by decide), splitEq_of_not_hasSep hpsep]
        rw [readLine_pair (strip_ne_marker hsepp) hsepp hsplitp, if_pos rfl, hpv]
        rfl
      have hpre1 : readLines (⟨true, [], []⟩ : CatState)
          [str "# List of git repositories to sync using gitcat",
           str "# Do not remove the \"Catalogue:\" line below!",
           ([] : Str)] = Except.ok ⟨true, [], []⟩ := by rfl
      have hskip : readLine (⟨true, [(str "prefix", pv)], []⟩ : CatState) ([] : Str) =
          Except.ok ⟨true, [(str "prefix", pv)], []⟩ :=
        readLine_skip (by decide) (by decide)
      have hmark : readLine (⟨true, [(str "prefix", pv)], []⟩ : CatState)
          (str "Catalogue:") = Except.ok ⟨false, [(str "prefix", pv)], []⟩ :=
        readLine_marker (by decide)
      rw [readCatalogue, saveLines, if_pos hh]
      simp only [List.nil_append, List.cons_append, List.append_nil]
      rw [show str "# List of git repositories to sync using gitcat" ::
            str "# Do not remove the \"Catalogue:\" line below!" ::
            ([] : Str) :: (str "prefix = " ++ pv) :: ([] : Str) ::
            str "Catalogue:" ::
            (if cat.isEmpty then [[]] else cat.map (entryLine maxw)) =
          [str "# List of git repositories to sync using gitcat",
           str "# Do not remove the \"Catalogue:\" line below!",
           ([] : Str)] ++
            ((str "prefix = " ++ pv) :: ([] : Str) :: str "Catalogue:" ::
              (if cat.isEmpty then [[]] else cat.map (entryLine maxw))) from rfl]
      rw [readLines_append_ok hpre1]
      rw [readLines_cons_ok ⟨true, [(str "prefix", pv)], []⟩ hpl,
        readLines_cons_ok ⟨true, [(str "prefix", pv)], []⟩ hskip,
        readLines_cons_ok ⟨false, [(str "prefix", pv)], []⟩ hmark]
      rw [if_pos hh]
      exact hentries [(str "prefix", pv)]
  · by_cases hh : pv = home
    · rw [if_neg (not_not_intro hh)]
      simpa [prefixAfterRead] using hh.symm
    · rw [if_pos hh]
      simp [prefixAfterRead]

/-- Counterexample to claim C2 as stated: the catalogue mapping the name " a" (with a
leading blank, no newline and no " = " anywhere) to "u" does not survive a
save/read round trip — save_catalogue pads the name and read_catalogue
strips it, so the loaded catalogue maps "a", not " a".  This refutes the
claim as stated, whose only hypotheses are the absence of newlines and of
" = " substrings. -/
theorem save_then_read_untrimmed_name_not_restored :
    readCatalogue (saveLines (maxKeyLen [(str " a", str "u")])
        [(str " a", str "u")] (str "/h") (str "/h")) =
      Except.ok ⟨false, [], [(str "a", str "u")]⟩ ∧
    [(str "a", str "u")] ≠ [(str " a", str "u")] :=
  ⟨rfl, by decide⟩

/-- Witness for claim C2: the amended round-trip theorem applied to a concrete
one-entry catalogue with a prefix differing from HOME. -/
theorem save_then_read_restores_catalogue_witness :
    readCatalogue (saveLines 4 [(str "dir", str "url")] (str "/p") (str "/h")) =
      Except.ok ⟨false,
        (if str "/p" ≠ str "/h" then [(str "prefix", str "/p")] else []),
        [(str "dir", str "url")]⟩ ∧
    prefixAfterRead (str "/h")
      ⟨false, (if str "/p" ≠ str "/h" then [(str "prefix", str "/p")] else []),
        [(str "dir", str "url")]⟩ = str "/p" :=
  save_then_read_restores_catalogue [(str "dir", str "url")] (str "/p") (str "/h") 4
    (by decide) (by decide) (by decide) (by decide) (by decide)

-- ## GitCat.move (src/gitcat.py, lines 583-620)

/-- Python dict assignment `d[k] = v`: when the key already exists its
value is replaced in place and the insertion order is unchanged;
otherwise the pair is appended at the end. -/
def dictInsert (cat : List (Str × Str)) (k v : Str) : List (Str × Str) :=
  if keyMem k cat then cat.map (fun p => if p.1 = k then (p.1, v) else p)
  else cat ++ [(k, v)]

/-- Python `cat[k]` (at the call sites inside move the key is always
present, so the default is never returned). -/
def dictGet (cat : List (Str × Str)) (k : Str) : Str :=
  ((cat.find? fun p => decide (p.1 = k)).map Prod.snd).getD []

/-- Python `reps.index(dire)`. -/
def idxOf (reps : List Str) (k : Str) : Nat :=
  reps.findIdx fun x => decide (x = k)

/-- One iteration of the rebuilding loop of move (lines 610-617): at
`pos == position` insert the moved repository and update delta, otherwise
insert `reps[pos + delta]`; after either branch, reaching `pos == dire_pos`
sets delta for the following iterations.  The accumulator is the new
catalogue together with delta.  (The index pos + delta stays within range
in every reachable state, so the total getD never falls back.) -/
def moveStep (cat : List (Str × Str)) (reps : List Str) (dire : Str)
    (position dire_pos : Int) (acc : List (Str × Str) × Int) (pos : Nat) :
    List (Str × Str) × Int :=
  let next :=
    if (pos : Int) = position then
      (dictInsert acc.1 dire (dictGet cat dire),
        if position < dire_pos then -1 else 0)
    else
      let k := reps.getD (Int.toNat ((pos : Int) + acc.2)) []
      (dictInsert acc.1 k (dictGet cat k), acc.2)
  if (pos : Int) = dire_pos then
    (next.1, if position > dire_pos then 1 else 0)
  else next

/-- GitCat.move for the repository with catalogue key `dire`: negative
positions count from the end; when the key is missing, error_message
exits (`none`); when the target equals the current index nothing is
rebuilt and nothing is saved; otherwise the catalogue is rebuilt by the
loop and saved.  Returns the catalogue afterwards and whether
save_catalogue was invoked. -/
def moveCat (cat : List (Str × Str)) (dire : Str) (position : Int) :
    Option (List (Str × Str) × Bool) :=
  if keyMem dire cat then
    let position := if position < 0 then position + cat.length else position
    let reps := cat.map Prod.fst
    let dire_pos : Int := idxOf reps dire
    if dire_pos ≠ position then
      some (((List.range cat.length).foldl
        (moveStep cat reps dire position dire_pos) ([], 0)).1, true)
    else some (cat, false)
  else none

-- ## Claim C3

/-- Claim C3 (code bug): on the catalogue a, b, c with the current repository
a, `git cat move -1` — which by the move docstring "moves the current
repository to the end of the catalogue" — must produce b, c, a with a at
index 2.  Instead the code inserts a at its old slot during the rebuild
(the delta correction is applied only after the `pos == dire_pos`
iteration has already re-inserted reps[dire_pos]), so the later
`self.catalogue[dire] = cat[dire]` at pos == position is a plain value
overwrite that cannot move a Python dict key, entry b is never copied,
and the saved catalogue is a, c with a still first. -/
theorem move_to_later_position_drops_entry :
    moveCat [(str "a", str "ua"), (str "b", str "ub"), (str "c", str "uc")]
      (str "a") (-1) =
      some ([(str "a", str "ua"), (str "c", str "uc")], true) ∧
    [(str "a", str "ua"), (str "c", str "uc")] ≠
      [(str "b", str "ub"), (str "c", str "uc"), (str "a", str "ua")] :=
  ⟨by decide, by decide⟩

-- ## Settings.__init__ rc_file selection (src/gitcat.py, lines 178-183)

/-- The uncaught Python exception raised by reading a missing attribute. -/
inductive PyErr
  | attributeError
deriving DecidableEq

/-- Lines 180-183 of Settings.__init__, as a function of the filesystem
facts they consult (paths are kept in their unexpanded "~" spelling).
When `~/.dotfiles/config` is a directory, `self.rc_file` is set to the
dotfiles path and the following guard
`not (os.path.isfile(self.rc_file) or hasattr(self, "rc_file"))` is false
because hasattr is True.  When it is not a directory, `self.rc_file` was
never assigned, and evaluating `os.path.isfile(self.rc_file)` — the left
operand, evaluated before the `or` can consult hasattr — raises
AttributeError. -/
def rcFileDefault (dotfilesConfigIsDir : Bool) (isfile : Str → Bool) :
    Except PyErr Str :=
  if dotfilesConfigIsDir then
    let rc := str "~/.dotfiles/config/gitcatrc"
    if !(isfile rc || true) then Except.ok (str "~/.gitcatrc") else Except.ok rc
  else
    Except.error PyErr.attributeError

-- ## Claim C9

/-- Claim C9 (code bug): when ~/.dotfiles/config exists the rc_file is the
dotfiles path, as claimed; but when it does not exist, Settings
initialisation raises AttributeError instead of yielding ~/.gitcatrc —
for every isfile oracle — contradicting both the claim and the module
docstring ("otherwise it defaults to ~/.gitcatrc", lines 59-62). -/
theorem settings_rc_file_crashes_without_dotfiles (isfile : Str → Bool) :
    rcFileDefault true isfile = Except.ok (str "~/.dotfiles/config/gitcatrc") ∧
    rcFileDefault false isfile = Except.error PyErr.attributeError := by
  constructor
  · simp [rcFileDefault]
  · rfl

-- ## Status extraction: the compiled regexes (src/gitcat.py, lines 148-157)
-- and their use in GitCat.status (lines 1175-1243)

/-- Maximal run of decimal digits at the head of the string; in both
regexes [0-9]+ is greedy and the pattern character after the digits can
never be a digit, so maximal munch computes the regex match exactly. -/
def takeDigits : Str → Str × Str
  | [] => ([], [])
  | c :: rest =>
    if c.isDigit then
      let p := takeDigits rest
      (c :: p.1, p.2)
    else ([], c :: rest)

/-- One "ahead " or "behind " keyword; the two alternatives differ in
their first character, so the regex alternation is deterministic. -/
def abKeyword (s : Str) : Option (Str × Str) :=
  if startsWith (str "ahead ") s then some (str "ahead ", s.drop 6)
  else if startsWith (str "behind ") s then some (str "behind ", s.drop 7)
  else none

/-- The part of `\[((ahead|behind) [0-9]+(, )?)+\]` after the opening
bracket: one or more keyword-number groups, each optionally followed by
", ", closed by "]".  At every choice point of the regex the alternatives
are mutually exclusive (after the digits the next character is ",", "]"
or the first letter of another keyword), so this deterministic reading
computes exactly the backtracking match of Python re.  The fuel only
bounds the recursion; matchAB passes more fuel than characters. -/
def abLoop : Nat → Str → Option Str
  | 0, _ => none
  | fuel + 1, s =>
    match abKeyword s with
    | none => none
    | some kwrest =>
      let p := takeDigits kwrest.2
      if p.1 = [] then none
      else
        let cr := if startsWith (str ", ") p.2 then (str ", ", p.2.drop 2)
          else (([] : Str), p.2)
        if cr.2.take 1 = [']'] then some (kwrest.1 ++ p.1 ++ cr.1 ++ [']'])
        else (abLoop fuel cr.2).map (fun m => kwrest.1 ++ p.1 ++ cr.1 ++ m)

/-- ahead_behind matched at the start of s (the bracket, the groups, the
closing bracket); returns the matched text, re group(). -/
def matchAB : Str → Option Str
  | [] => none
  | c :: rest =>
    if c = '[' then (abLoop (rest.length + 1) rest).map (fun m => '[' :: m)
    else none

/-- re.search with ahead_behind: the match at the leftmost starting
position where one exists. -/
def searchAB : Str → Option Str
  | [] => none
  | c :: rest =>
    match matchAB (c :: rest) with
    | some m => some m
    | none => searchAB rest

/-- Lines 1211-1212 of status: `changes = ahead_behind.search(out)` and
`changes = "" if changes is None else changes.group()[1:-1]`. -/
def statusChanges (out : Str) : Str :=
  match searchAB out with
  | none => []
  | some m => (m.drop 1).dropLast

/-- files_changed = `([0-9]+ file(?:s|))(?: changed)` matched at the start
of s; returns capture group 1, that is "N file" or "N files".  The empty
alternative of (?:s|) applies exactly when the character after "file" is
not "s" followed by " changed", so the two tests below reproduce the
backtracking behaviour. -/
def matchFC (s : Str) : Option Str :=
  let p := takeDigits s
  if p.1 = [] then none
  else if startsWith (str " file") p.2 then
    let r2 := p.2.drop 5
    if startsWith (str "s changed") r2 then some (p.1 ++ str " files")
    else if startsWith (str " changed") r2 then some (p.1 ++ str " file")
    else none
  else none

/-- re.search with files_changed. -/
def searchFC : Str → Option Str
  | [] => none
  | c :: rest =>
    match matchFC (c :: rest) with
    | some m => some m
    | none => searchFC rest

/-- Lines 1224-1225 of status: `changed = files_changed.search(diff.output)`
and `changed = "" if changed is None else
"uncommitted changes in " + changed.groups()[0]`. -/
def filesChangedReport (out : Str) : Str :=
  match searchFC out with
  | none => []
  | some g => str "uncommitted changes in " ++ g

/-- Lines 1229-1230 of status: `if changes != "": changed += changes if
changed == "" else ", " + changes` — the summary reported for the
repository. -/
def statusSummary (statusOut diffOut : Str) : Str :=
  let changes := statusChanges statusOut
  let changed := filesChangedReport diffOut
  if changes ≠ [] then
    (if changed = [] then changes else changed ++ str ", " ++ changes)
  else changed

/-- A nonempty all-digit string (the N and M of the claim). -/
def digitsOnly (n : Str) : Prop := n ≠ [] ∧ ∀ c ∈ n, c.isDigit = true

instance (n : Str) : Decidable (digitsOnly n) := by
  unfold digitsOnly
  infer_instance

/-- The three bracket contents named by the claim: "ahead N", "behind N",
"ahead N, behind M". -/
def abGroup (g : Str) : Prop :=
  (∃ n, digitsOnly n ∧ (g = str "ahead " ++ n ∨ g = str "behind " ++ n)) ∨
  (∃ n m, digitsOnly n ∧ digitsOnly m ∧
    g = str "ahead " ++ (n ++ (',' :: ' ' :: (str "behind " ++ m))))

-- ### lemmas about the matchers

theorem startsWith_append_self (p x : Str) : startsWith p (p ++ x) = true := by
  simp [startsWith, List.take_left]

theorem takeDigits_append (ds : Str) (hds : ∀ c ∈ ds, c.isDigit = true) :
    ∀ (r : Str), (∀ c, r.head? = some c → c.isDigit = false) →
    takeDigits (ds ++ r) = (ds, r) := by
  induction ds with
  | nil =>
    intro r hr
    cases r with
    | nil => rfl
    | cons c r' =>
      rw [List.nil_append]
      simp [takeDigits, hr c rfl]
  | cons c ds' ih =>
    intro r hr
    rw [List.cons_append]
    simp [takeDigits, hds c (List.mem_cons_self c ds'),
      ih (fun x hx => hds x (List.mem_cons_of_mem c hx)) r hr]

theorem abKeyword_ahead (t : Str) :
    abKeyword (str "ahead " ++ t) = some (str "ahead ", t) := rfl

theorem abKeyword_behind (t : Str) :
    abKeyword (str "behind " ++ t) = some (str "behind ", t) := rfl

/-- Closing a final keyword-number group against "]". -/
theorem abLoop_close (fuel : Nat) (kw ds t : Str)
    (hkw : abKeyword (kw ++ (ds ++ (']' :: t))) = some (kw, ds ++ (']' :: t)))
    (hne : ds ≠ []) (hds : ∀ c ∈ ds, c.isDigit = true) :
    abLoop (fuel + 1) (kw ++ (ds ++ (']' :: t))) = some (kw ++ (ds ++ [']'])) := by
  have htd : takeDigits (ds ++ (']' :: t)) = (ds, ']' :: t) :=
    takeDigits_append ds hds _ (fun c hc => by
      rw [show c = ']' from (Option.some.inj hc).symm]; decide)
  have hsw : startsWith (str ", ") (']' :: t) = false := rfl
  simp [abLoop, hkw, htd, hne, hsw]

/-- A pair of groups "ahead N, behind M" closed against "]". -/
theorem abLoop_two (fuel : Nat) (n m t : Str)
    (hn : digitsOnly n) (hm : digitsOnly m) :
    abLoop (fuel + 2)
        (str "ahead " ++ (n ++ (',' :: ' ' :: (str "behind " ++ (m ++ (']' :: t)))))) =
      some (str "ahead " ++ (n ++ (',' :: ' ' :: (str "behind " ++ (m ++ [']'])))))
    := by
  have htd : takeDigits (n ++ (',' :: ' ' :: (str "behind " ++ (m ++ (']' :: t))))) =
      (n, ',' :: ' ' :: (str "behind " ++ (m ++ (']' :: t)))) :=
    takeDigits_append n hn.2 _ (fun c hc => by
      rw [show c = ',' from (Option.some.inj hc).symm]; decide)
  have htd2 : takeDigits (m ++ (']' :: t)) = (m, ']' :: t) :=
    takeDigits_append m hm.2 _ (fun c hc => by
      rw [show c = ']' from (Option.some.inj hc).symm]; decide)
  have hsw : startsWith (str ", ")
      (',' :: ' ' :: (str "behind " ++ (m ++ (']' :: t)))) = true := rfl
  have hsw2 : startsWith (str ", ") (']' :: t) = false := rfl
  have hb : ¬ ((str "behind " ++ (m ++ (']' :: t))).take 1 = [']']) := by
    rw [show (str "behind " ++ (m ++ (']' :: t))).take 1 = ['b'] from rfl]
    decide
  simp [abLoop, abKeyword_ahead, abKeyword_behind, htd, htd2, hn.1, hm.1,
    hsw, hsw2, hb]
  rfl

/-- re.search scans left to right: positions before the first "[" cannot
start a match of ahead_behind. -/
theorem searchAB_skip (pre : Str) (hpre : ∀ c ∈ pre, c ≠ '[') (t : Str) :
    searchAB (pre ++ t) = searchAB t := by
  induction pre with
  | nil => rfl
  | cons c pre' ih =>
    have hc : ¬ c = '[' := hpre c (List.mem_cons_self c pre')
    rw [List.cons_append]
    simp only [searchAB, matchAB, if_neg hc]
    exact ih (fun x hx => hpre x (List.mem_cons_of_mem c hx))

/-- The whole bracketed group matches at an opening bracket. -/
theorem searchAB_group (g t : Str) (hg : abGroup g) :
    searchAB ('[' :: (g ++ (']' :: t))) = some ('[' :: (g ++ [']'])) := by
  have hloop : abLoop ((g ++ (']' :: t)).length + 1) (g ++ (']' :: t)) =
      some (g ++ [']']) := by
    rcases hg with ⟨n, hn, hgg | hgg⟩ | ⟨n, m, hn, hm, hgg⟩
    · subst hgg
      simp only [List.append_assoc, List.cons_append, List.nil_append]
      exact abLoop_close _ _ n t (abKeyword_ahead _) hn.1 hn.2
    · subst hgg
      simp only [List.append_assoc, List.cons_append, List.nil_append]
      exact abLoop_close _ _ n t (abKeyword_behind _) hn.1 hn.2
    · subst hgg
      have hlen : ((str "ahead " ++ (n ++ (',' :: ' ' :: (str "behind " ++ m)))
          ++ (']' :: t)).length) + 1 =
          ((str "ahead " ++ (n ++ (',' :: ' ' :: (str "behind " ++ m)))
          ++ (']' :: t)).length - 1) + 2 := by
        simp [List.length_append]
        omega
      rw [hlen]
      simp only [List.append_assoc, List.cons_append, List.nil_append]
      exact abLoop_two _ n m t hn hm
  simp only [List.length_append, List.length_cons] at hloop
  simp [searchAB, matchAB, hloop]

/-- Helper: statusChanges on a branch header containing one bracketed
ahead/behind group. -/
theorem statusChanges_extract (pre g t : Str) (hpre : ∀ c ∈ pre, c ≠ '[')
    (hg : abGroup g) :
    statusChanges (pre ++ ('[' :: (g ++ (']' :: t)))) = g := by
  unfold statusChanges
  rw [searchAB_skip pre hpre, searchAB_group g t hg]
  show (('[' :: (g ++ [']'])).drop 1).dropLast = g
  rw [show ('[' :: (g ++ [']'])).drop 1 = g ++ [']'] from rfl,
    List.dropLast_concat]

/-- re.search with files_changed skips positions holding no digit. -/
theorem searchFC_skip (pre : Str) (hpre : ∀ c ∈ pre, c.isDigit = false) (t : Str) :
    searchFC (pre ++ t) = searchFC t := by
  induction pre with
  | nil => rfl
  | cons c pre' ih =>
    have hc := hpre c (List.mem_cons_self c pre')
    rw [List.cons_append]
    simp only [searchFC, matchFC, takeDigits, hc]
    simp
    exact ih (fun x hx => hpre x (List.mem_cons_of_mem c hx))

/-- Helper: the files_changed match anchored at the digits. -/
theorem matchFC_extract (ds sfx t : Str) (hds : digitsOnly ds)
    (hsfx : sfx = [] ∨ sfx = ['s']) :
    matchFC (ds ++ (str " file" ++ (sfx ++ (str " changed" ++ t)))) =
      some (ds ++ (str " file" ++ sfx)) := by
  rcases hsfx with rfl | rfl
  · have htd : takeDigits (ds ++ (str " file" ++ (str " changed" ++ t))) =
        (ds, str " file" ++ (str " changed" ++ t)) :=
      takeDigits_append ds hds.2 _ (fun c hc => by
        rw [show c = ' ' from (Option.some.inj hc).symm]; decide)
    have hs1 : startsWith (str "s changed") (str " changed" ++ t) = false := rfl
    have hs2 : startsWith (str " changed") (str " changed" ++ t) = true :=
      startsWith_append_self _ _
    have hs3 : startsWith (str " file")
        (str " file" ++ (str " changed" ++ t)) = true :=
      startsWith_append_self _ _
    simp [matchFC, htd, hds.1, hs1, hs2, hs3,
      show (5 : Nat) = (str " file").length from rfl, List.drop_left]
  · have htd : takeDigits (ds ++ (str " file" ++ ('s' :: (str " changed" ++ t)))) =
        (ds, str " file" ++ ('s' :: (str " changed" ++ t))) :=
      takeDigits_append ds hds.2 _ (fun c hc => by
        rw [show c = ' ' from (Option.some.inj hc).symm]; decide)
    have hs1 : startsWith (str "s changed") ('s' :: (str " changed" ++ t)) = true :=
      startsWith_append_self (str "s changed") t
    have hs3 : startsWith (str " file")
        (str " file" ++ ('s' :: (str " changed" ++ t))) = true :=
      startsWith_append_self _ _
    have hfs : str " file" ++ (['s'] : Str) = str " files" := rfl
    simp [matchFC, htd, hds.1, hs1, hs3, hfs,
      show (5 : Nat) = (str " file").length from rfl, List.drop_left]

/-- Helper: full files_changed extraction with a digit-free pre-text. -/
theorem filesChanged_extract (pre ds sfx t : Str)
    (hpre : ∀ c ∈ pre, c.isDigit = false) (hds : digitsOnly ds)
    (hsfx : sfx = [] ∨ sfx = ['s']) :
    filesChangedReport (pre ++ (ds ++ (str " file" ++ (sfx ++ (str " changed" ++ t))))) =
      str "uncommitted changes in " ++ (ds ++ (str " file" ++ sfx)) := by
  unfold filesChangedReport
  rw [searchFC_skip pre hpre]
  cases hd : ds with
  | nil => exact absurd hd hds.1
  | cons c ds' =>
    subst hd
    have hm := matchFC_extract (c :: ds') sfx t hds hsfx
    simp only [List.cons_append] at hm
    simp [searchFC, hm]

theorem abGroup_ne_nil {g : Str} (hg : abGroup g) : g ≠ [] := by
  rcases hg with ⟨n, hn, hgg | hgg⟩ | ⟨n, m, hn, hm, hgg⟩ <;>
    (subst hgg; exact fun h => List.noConfusion h)

-- ## Claim C5

/-- Claim C5 (amended): for a branch-header text whose bracketed group has
one of the forms "[ahead N]", "[behind N]", "[ahead N, behind M]" (N, M
nonempty digit strings) and no "[" before it, status extracts exactly the
contents of the bracket without the brackets; for a diff --shortstat text
"N file(s) changed" with no digit before the count, it reports
"uncommitted changes in N file(s)"; and when both are present they are
joined with ", " with the uncommitted-changes part FIRST and the
ahead/behind part second (the code appends `", " + changes` to
`changed`), which is the order the claim as stated reverses. -/
theorem status_extraction_and_join
    (pre1 g t1 pre2 ds sfx t2 : Str)
    (h1 : ∀ c ∈ pre1, c ≠ '[') (hg : abGroup g)
    (h2 : ∀ c ∈ pre2, c.isDigit = false) (hds : digitsOnly ds)
    (hsfx : sfx = [] ∨ sfx = ['s']) :
    statusChanges (pre1 ++ ('[' :: (g ++ (']' :: t1)))) = g ∧
    filesChangedReport (pre2 ++ (ds ++ (str " file" ++ (sfx ++ (str " changed" ++ t2))))) =
      str "uncommitted changes in " ++ (ds ++ (str " file" ++ sfx)) ∧
    statusSummary (pre1 ++ ('[' :: (g ++ (']' :: t1))))
        (pre2 ++ (ds ++ (str " file" ++ (sfx ++ (str " changed" ++ t2))))) =
      (str "uncommitted changes in " ++ (ds ++ (str " file" ++ sfx))) ++ str ", " ++ g := by
  have hc := statusChanges_extract pre1 g t1 h1 hg
  have hf := filesChanged_extract pre2 ds sfx t2 h2 hds hsfx
  refine ⟨hc, hf, ?_⟩
  simp only [statusSummary]
  rw [hc, hf]
  rw [if_pos (abGroup_ne_nil hg),
    if_neg (show ¬ (str "uncommitted changes in " ++ (ds ++ (str " file" ++ sfx))) = []
      from fun h => List.noConfusion h)]

/-- Counterexample to claim C5 as stated: with both parts present the code reports
"uncommitted changes in 2 files, ahead 1" — the files part first — not
"ahead 1, uncommitted changes in 2 files" as the order of the claim
sentence asserts. -/
theorem status_join_order_files_first :
    statusSummary (str "## master...origin/master [ahead 1]")
        (str " 2 files changed, 3 insertions(+)") =
      str "uncommitted changes in 2 files, ahead 1" ∧
    str "uncommitted changes in 2 files, ahead 1" ≠
      str "ahead 1, uncommitted changes in 2 files" :=
  ⟨rfl, by decide⟩

/-- Witness for claim C5: the amended theorem applied to the concrete header
"## m [ahead 1]" and shortstat " 2 files changed, 3 insertions(+)". -/
theorem status_extraction_and_join_witness :
    statusChanges (str "## m " ++ ('[' :: (str "ahead 1" ++ (']' :: str "")))) =
      str "ahead 1" ∧
    filesChangedReport (str " " ++ (str "2" ++ (str " file" ++ ((['s'] : Str) ++
        (str " changed" ++ str ", 3 insertions(+)"))))) =
      str "uncommitted changes in " ++ (str "2" ++ (str " file" ++ (['s'] : Str))) ∧
    statusSummary (str "## m " ++ ('[' :: (str "ahead 1" ++ (']' :: str ""))))
        (str " " ++ (str "2" ++ (str " file" ++ ((['s'] : Str) ++
          (str " changed" ++ str ", 3 insertions(+)"))))) =
      (str "uncommitted changes in " ++ (str "2" ++ (str " file" ++ (['s'] : Str)))) ++
        str ", " ++ str "ahead 1" :=
  status_extraction_and_join (str "## m ") (str "ahead 1") (str "") (str " ")
    (str "2") ['s'] (str ", 3 insertions(+)")
    (by decide) (Or.inl ⟨str "1", by decide, Or.inl rfl⟩)
    (by decide) (by decide) (Or.inr rfl)

-- ## Repository selection (GitCat.repositories, lines 711-720) and the
-- per-repository command loops

/-- re.search of the repositories filter against a catalogue key, for
patterns without regex metacharacters (the documented usage, e.g. "Code"):
such a pattern matches somewhere in the key exactly when it is a
substring; the empty default pattern matches every key. -/
def reSearchLit (pat key : Str) : Bool := containsStr pat key

/-- GitCat.repositories: without a repositories attribute every catalogue
key is returned; otherwise the keys are filtered by the compiled pattern,
preserving catalogue order. -/
def repositoriesOf (cat : List (Str × Str)) (filterPat : Option Str) : List Str :=
  match filterPat with
  | none => cat.map Prod.fst
  | some pat => (cat.map Prod.fst).filter (reSearchLit pat)

/-- The outcome of one Git(...) subprocess call as the wrapper stores it:
truthiness (returncode == 0) and the reformatted output. -/
structure GitRes where
  ok : Bool
  output : Str
deriving DecidableEq

/-- The observable effects the claims speak about: running a git
subprocess (repository label, git command name, option string) and
writing the catalogue file via save_catalogue.  Messages printed to
stdout are not modelled. -/
inductive Effect
  | gitCall (rep cmd opts : Str)
  | saveCat
deriving DecidableEq

/-- The environment a run executes against: which repositories are
installed git repositories, the result of each git call (keyed by
repository and git command name — the claims never need two different
results for the same command in one run), the dry-run and git_local
flags, the current repository for add, remove and move together with its
remote lookup, whether the gitcatrc directory is a git repository, and
remove's git_everything flag. -/
structure Env where
  isGit : Str → Bool
  run : Str → Str → GitRes
  dryRun : Bool
  gitLocal : Bool
  currentRoot : Str
  currentRemote : GitRes
  rcDirIsGit : Bool
  everything : Bool

/-- The `git rev-parse --is-inside-work-tree` probe that
is_git_repository issues for a repository. -/
def checkRepo (rep : Str) : Effect :=
  Effect.gitCall rep (str "rev-parse") (str "--is-inside-work-tree")

/-- The same probe for the directory holding the gitcatrc file (its label
is the shortened path of that directory). -/
def rcDirProbe : Effect :=
  Effect.gitCall (str "catdir") (str "rev-parse") (str "--is-inside-work-tree")

/-- The options of the auto-commit made by commit_repository:
`--all --message="{message}"`, plus ` --porcelain` under dry-run
(lines 499-514). -/
def commitOptions (dryRun : Bool) (msg : Str) : Str :=
  str "--all --message=\"" ++ msg ++ str "\"" ++
    (if dryRun then str " --porcelain" else [])

/-- commit_repository (lines 499-514): run `git diff-index --name-only
HEAD`; when it succeeds with nonempty output, commit with the file list in
the message and return the commit record, else return the diff-index
record.  Yields the effects and the record whose truthiness the caller
tests. -/
def commitRepoEffects (env : Env) (rep : Str) : List Effect × GitRes :=
  let cf := env.run rep (str "diff-index")
  let e0 := [Effect.gitCall rep (str "diff-index") (str "--name-only HEAD")]
  if cf.ok = true ∧ cf.output ≠ [] then
    (e0 ++ [Effect.gitCall rep (str "commit")
      (commitOptions env.dryRun (str "git cat: updating " ++ cf.output))],
     env.run rep (str "commit"))
  else (e0, cf)

/-- The push command body for one repository (lines 1056-1089): after the
repository check, auto-commit; if the returned record is truthy, list the
branch tracking state with for-each-ref; if that succeeds and its output
mentions "ahead", push — unless dry-run is set. -/
def pushRepoTrace (env : Env) (rep : Str) : List Effect :=
  checkRepo rep ::
  (if env.isGit rep then
    (commitRepoEffects env rep).1 ++
    (if (commitRepoEffects env rep).2.ok then
      Effect.gitCall rep (str "for-each-ref")
        (str "--format=\"%(refname:short) %(upstream:track)\" refs/heads") ::
      (if containsStr (str "ahead") (env.run rep (str "for-each-ref")).output ∧
          (env.run rep (str "for-each-ref")).ok = true then
        (if env.dryRun then [] else
          [Effect.gitCall rep (str "push") (str "--porcelain --follow-tags")])
      else [])
    else [])
  else [])

/-- One repository of the pull loop (lines 1012-1028). -/
def pullRepoTrace (env : Env) (rep : Str) : List Effect :=
  checkRepo rep ::
  (if env.isGit rep then [Effect.gitCall rep (str "pull") (str "-q --progress")] else [])

/-- One repository of the fetch loop (lines 928-939). -/
def fetchRepoTrace (env : Env) (rep : Str) : List Effect :=
  checkRepo rep ::
  (if env.isGit rep then [Effect.gitCall rep (str "fetch") (str "-q --progress")] else [])

/-- One repository of the branch loop (lines 825-837). -/
def branchRepoTrace (env : Env) (rep : Str) : List Effect :=
  checkRepo rep ::
  (if env.isGit rep then [Effect.gitCall rep (str "branch") (str "--verbose")] else [])

/-- One repository of the diff loop (lines 897-906), with the default
options of process_options plus " HEAD". -/
def diffRepoTrace (env : Env) (rep : Str) : List Effect :=
  checkRepo rep ::
  (if env.isGit rep then [Effect.gitCall rep (str "diff") (str " HEAD")] else [])

/-- One repository of the commit loop (lines 869-873). -/
def commitCmdRepoTrace (env : Env) (rep : Str) : List Effect :=
  checkRepo rep ::
  (if env.isGit rep then (commitRepoEffects env rep).1 else [])

/-- One repository of the status loop (lines 1199-1243): unless git_local
is set, `git remote update` runs first and gates the rest; then `git
status --porcelain --short --branch`, and when it succeeds `git diff
--shortstat --no-color`. -/
def statusRepoTrace (env : Env) (rep : Str) : List Effect :=
  checkRepo rep ::
  (if env.isGit rep then
    (if env.gitLocal then
      Effect.gitCall rep (str "status") (str "--porcelain --short --branch") ::
      (if (env.run rep (str "status")).ok then
        [Effect.gitCall rep (str "diff") (str "--shortstat --no-color")] else [])
    else
      Effect.gitCall rep (str "remote") (str "update") ::
      (if (env.run rep (str "remote")).ok then
        Effect.gitCall rep (str "status") (str "--porcelain --short --branch") ::
        (if (env.run rep (str "status")).ok then
          [Effect.gitCall rep (str "diff") (str "--shortstat --no-color")] else [])
      else []))
  else [])

/-- A whole command run: the per-repository traces of the selected
repositories, concatenated in catalogue order. -/
def catTrace (f : Env → Str → List Effect) (env : Env) (cat : List (Str × Str))
    (fp : Option Str) : List Effect :=
  ((repositoriesOf cat fp).map (f env)).flatten

def pushTrace (env : Env) (cat : List (Str × Str)) (fp : Option Str) : List Effect :=
  catTrace pushRepoTrace env cat fp

def pullTrace (env : Env) (cat : List (Str × Str)) (fp : Option Str) : List Effect :=
  catTrace pullRepoTrace env cat fp

def fetchTrace (env : Env) (cat : List (Str × Str)) (fp : Option Str) : List Effect :=
  catTrace fetchRepoTrace env cat fp

def branchTrace (env : Env) (cat : List (Str × Str)) (fp : Option Str) : List Effect :=
  catTrace branchRepoTrace env cat fp

def diffTrace (env : Env) (cat : List (Str × Str)) (fp : Option Str) : List Effect :=
  catTrace diffRepoTrace env cat fp

def commitTrace (env : Env) (cat : List (Str × Str)) (fp : Option Str) : List Effect :=
  catTrace commitCmdRepoTrace env cat fp

def statusTrace (env : Env) (cat : List (Str × Str)) (fp : Option Str) : List Effect :=
  catTrace statusRepoTrace env cat fp

/-- The list command (lines 839-855): list_catalogue(listing=False) probes
each selected repository with is_git_repository to choose the separator,
and prints; it runs no other git command and never saves. -/
def listTrace (env : Env) (cat : List (Str × Str)) (fp : Option Str) : List Effect :=
  (repositoriesOf cat fp).map checkRepo

/-- get_current_git_root and the remote lookup shared by add, remove and
move: the repository probe, `git root`, and `git remote get-url --push
origin`. -/
def rootEffects (env : Env) : List Effect :=
  [checkRepo env.currentRoot,
   Effect.gitCall env.currentRoot (str "root") [],
   Effect.gitCall env.currentRoot (str "remote") (str "get-url --push origin")]

/-- The add command (lines 765-797): on failure of the remote lookup or
when the repository is already catalogued, error_message exits before any
save; otherwise the entry is added, the catalogue saved, and when the
gitcatrc directory is itself a git repository a commit is made there. -/
def addTrace (env : Env) (cat : List (Str × Str)) : List Effect :=
  rootEffects env ++
  (if env.currentRemote.ok then
    (if keyMem env.currentRoot cat then []
     else Effect.saveCat :: rcDirProbe ::
       (if env.rcDirIsGit then
         [Effect.gitCall env.currentRoot (str "commit")
           (str "--all --message=\"Adding " ++ env.currentRoot ++
             str " to gitcatrc\"")]
        else []))
   else [])

/-- The remove command (lines 1139-1173): exits before saving when the
remote lookup fails or the repository is unknown; otherwise deletes the
entry and saves; with git_everything it also removes the directory (a
filesystem effect, not modelled) and commits in the gitcatrc directory
when that is a repository. -/
def removeTrace (env : Env) (cat : List (Str × Str)) : List Effect :=
  rootEffects env ++
  (if env.currentRemote.ok then
    (if keyMem env.currentRoot cat then
      Effect.saveCat ::
      (if env.everything then
        rcDirProbe ::
        (if env.rcDirIsGit then
          [Effect.gitCall env.currentRoot (str "commit")
            (str "--all --message \"Removing " ++ env.currentRoot ++
              str " from gitcatrc\"")]
         else [])
       else [])
     else [])
   else [])

/-- The move command (lines 583-620): exits when the remote lookup fails
or the repository is not catalogued; saves exactly when the adjusted
target position differs from the current index. -/
def moveTrace (env : Env) (cat : List (Str × Str)) (position : Int) : List Effect :=
  rootEffects env ++
  (if env.currentRemote.ok then
    (if keyMem env.currentRoot cat then
      (let n : Int := cat.length
       let position := if position < 0 then position + n else position
       let dire_pos : Int := idxOf (cat.map Prod.fst) env.currentRoot
       if dire_pos ≠ position then [Effect.saveCat] else [])
     else [])
   else [])

-- ### containsStr lemmas

theorem containsStr_nil_pat : ∀ (s : Str), containsStr [] s = true := by
  intro s
  cases s with
  | nil => rfl
  | cons c r => simp [containsStr, startsWith]

theorem containsStr_of_startsWith {p s : Str} (h : startsWith p s = true) :
    containsStr p s = true := by
  cases s with
  | nil =>
    have h2 : ([] : Str) = p := by simpa [startsWith] using h
    simp [containsStr, ← h2]
  | cons c r => simp [containsStr, h]

theorem containsStr_append_right (p : Str) : ∀ (x : Str), containsStr p (x ++ p) = true := by
  intro x
  induction x with
  | nil =>
    rw [List.nil_append]
    exact containsStr_of_startsWith (by simp [startsWith, List.take_length])
  | cons c x' ih => simp [containsStr, ih]

-- ## Claim C7

/-- Claim C7: every command iterates the selected repositories sequentially
in catalogue order — the selection is a sublist of the catalogue keys and
the command trace is the concatenation of the per-repository traces over
that selection in order; a repository is selected exactly when the
filter pattern occurs in its key (re.search of a literal pattern); the
default empty pattern, and equally a missing filter, select every
repository. -/
theorem repositories_filter_selection (cat : List (Str × Str)) (pat : Str)
    (env : Env) :
    (∀ k, k ∈ repositoriesOf cat (some pat) ↔
      k ∈ cat.map Prod.fst ∧ reSearchLit pat k = true) ∧
    List.Sublist (repositoriesOf cat (some pat)) (cat.map Prod.fst) ∧
    repositoriesOf cat (some []) = cat.map Prod.fst ∧
    repositoriesOf cat none = cat.map Prod.fst ∧
    pullTrace env cat (some pat) =
      ((repositoriesOf cat (some pat)).map (pullRepoTrace env)).flatten := by
  refine ⟨?_, ?_, ?_, rfl, rfl⟩
  · intro k
    simp [repositoriesOf, List.mem_filter]
  · exact List.filter_sublist _
  · unfold repositoriesOf
    exact List.filter_eq_self.mpr (fun a _ => containsStr_nil_pat a)

-- ### per-repository traces never save the catalogue

theorem pushRepo_no_save (env : Env) (rep : Str) :
    Effect.saveCat ∉ pushRepoTrace env rep := by
  intro h
  simp only [pushRepoTrace, commitRepoEffects, checkRepo] at h
  split_ifs at h <;> simp at h

theorem pullRepo_no_save (env : Env) (rep : Str) :
    Effect.saveCat ∉ pullRepoTrace env rep := by
  intro h
  simp only [pullRepoTrace, checkRepo] at h
  split_ifs at h <;> simp at h

theorem fetchRepo_no_save (env : Env) (rep : Str) :
    Effect.saveCat ∉ fetchRepoTrace env rep := by
  intro h
  simp only [fetchRepoTrace, checkRepo] at h
  split_ifs at h <;> simp at h

theorem branchRepo_no_save (env : Env) (rep : Str) :
    Effect.saveCat ∉ branchRepoTrace env rep := by
  intro h
  simp only [branchRepoTrace, checkRepo] at h
  split_ifs at h <;> simp at h

theorem diffRepo_no_save (env : Env) (rep : Str) :
    Effect.saveCat ∉ diffRepoTrace env rep := by
  intro h
  simp only [diffRepoTrace, checkRepo] at h
  split_ifs at h <;> simp at h

theorem commitRepo_no_save (env : Env) (rep : Str) :
    Effect.saveCat ∉ commitCmdRepoTrace env rep := by
  intro h
  simp only [commitCmdRepoTrace, commitRepoEffects, checkRepo] at h
  split_ifs at h <;> simp at h

theorem statusRepo_no_save (env : Env) (rep : Str) :
    Effect.saveCat ∉ statusRepoTrace env rep := by
  intro h
  simp only [statusRepoTrace, checkRepo] at h
  split_ifs at h <;> simp at h

theorem saveCat_not_catTrace {f : Env → Str → List Effect}
    (hf : ∀ env rep, Effect.saveCat ∉ f env rep) (env : Env)
    (cat : List (Str × Str)) (fp : Option Str) :
    Effect.saveCat ∉ catTrace f env cat fp := by
  intro h
  rw [catTrace, List.mem_flatten] at h
  obtain ⟨l, hl, hmem⟩ := h
  rw [List.mem_map] at hl
  obtain ⟨rep, _, rfl⟩ := hl
  exact hf env rep hmem

-- ## Claim C8

/-- Claim C8: the query and batch-git commands — status, pull, push, fetch,
diff, branch, commit, list — never write the catalogue file: their traces
contain no save_catalogue effect, whatever the environment, catalogue and
filter; while add (on its success path), remove (on its success path) and
move (when the adjusted target differs from the current index) do invoke
save_catalogue. -/
theorem query_commands_never_save_catalogue (env : Env) (cat : List (Str × Str))
    (fp : Option Str) (position : Int) :
    Effect.saveCat ∉ statusTrace env cat fp ∧
    Effect.saveCat ∉ pullTrace env cat fp ∧
    Effect.saveCat ∉ pushTrace env cat fp ∧
    Effect.saveCat ∉ fetchTrace env cat fp ∧
    Effect.saveCat ∉ diffTrace env cat fp ∧
    Effect.saveCat ∉ branchTrace env cat fp ∧
    Effect.saveCat ∉ commitTrace env cat fp ∧
    Effect.saveCat ∉ listTrace env cat fp ∧
    (env.currentRemote.ok = true → keyMem env.currentRoot cat = false →
      Effect.saveCat ∈ addTrace env cat) ∧
    (env.currentRemote.ok = true → keyMem env.currentRoot cat = true →
      Effect.saveCat ∈ removeTrace env cat) ∧
    (env.currentRemote.ok = true → keyMem env.currentRoot cat = true →
      ((idxOf (cat.map Prod.fst) env.currentRoot : Int) ≠
        (if position < 0 then position + (cat.length : Int) else position)) →
      Effect.saveCat ∈ moveTrace env cat position) := by
  refine ⟨saveCat_not_catTrace statusRepo_no_save env cat fp,
    saveCat_not_catTrace pullRepo_no_save env cat fp,
    saveCat_not_catTrace pushRepo_no_save env cat fp,
    saveCat_not_catTrace fetchRepo_no_save env cat fp,
    saveCat_not_catTrace diffRepo_no_save env cat fp,
    saveCat_not_catTrace branchRepo_no_save env cat fp,
    saveCat_not_catTrace commitRepo_no_save env cat fp,
    ?_, ?_, ?_, ?_⟩
  · intro h
    rw [listTrace, List.mem_map] at h
    obtain ⟨rep, _, hr⟩ := h
    exact Effect.noConfusion hr
  · intro hok hkm
    simp [addTrace, hok, hkm]
  · intro hok hkm
    simp [removeTrace, hok, hkm]
  · intro hok hkm hne
    simp [moveTrace, hok, hkm, hne]

/-- A concrete environment for the witnesses of the trace claims. -/
def envW : Env :=
  ⟨fun _ => true, fun _ _ => ⟨true, str "f"⟩, false, false, str "r",
   ⟨true, str "u"⟩, false, false⟩

/-- Witness for claim C8: on a concrete run, add does save the catalogue. -/
theorem query_commands_never_save_catalogue_witness :
    Effect.saveCat ∈ addTrace envW [] :=
  (query_commands_never_save_catalogue envW [] none 0).2.2.2.2.2.2.2.2.1 rfl rfl

-- ## Claim C6

/-- Claim C6: for every selected repository that is an installed git
repository, push first auto-commits: when `git diff-index --name-only
HEAD` succeeds with a nonempty file list, the first three effects are the
repository probe, the diff-index call and a `git commit` whose options
carry --all and the message "git cat: updating " followed by that file
list — and any `git push` in the trace comes strictly later; when no
files changed (or diff-index failed), no git commit command is run for
that repository. -/
theorem push_autocommit_before_push (env : Env) (rep : Str)
    (hgit : env.isGit rep = true) :
    (((env.run rep (str "diff-index")).ok = true ∧
        (env.run rep (str "diff-index")).output ≠ []) →
      (pushRepoTrace env rep).take 3 =
        [checkRepo rep,
         Effect.gitCall rep (str "diff-index") (str "--name-only HEAD"),
         Effect.gitCall rep (str "commit")
           (commitOptions env.dryRun
             (str "git cat: updating " ++ (env.run rep (str "diff-index")).output))] ∧
      containsStr (str "--all")
        (commitOptions env.dryRun
          (str "git cat: updating " ++ (env.run rep (str "diff-index")).output)) = true ∧
      (∀ opts i, (pushRepoTrace env rep).get? i =
          some (Effect.gitCall rep (str "push") opts) → 3 ≤ i)) ∧
    (¬ ((env.run rep (str "diff-index")).ok = true ∧
        (env.run rep (str "diff-index")).output ≠ []) →
      ∀ opts, Effect.gitCall rep (str "commit") opts ∉ pushRepoTrace env rep) := by
  have htr : pushRepoTrace env rep =
      checkRepo rep ::
      ((commitRepoEffects env rep).1 ++
        (if (commitRepoEffects env rep).2.ok then
          Effect.gitCall rep (str "for-each-ref")
            (str "--format=\"%(refname:short) %(upstream:track)\" refs/heads") ::
          (if containsStr (str "ahead") (env.run rep (str "for-each-ref")).output ∧
              (env.run rep (str "for-each-ref")).ok = true then
            (if env.dryRun then [] else
              [Effect.gitCall rep (str "push") (str "--porcelain --follow-tags")])
          else [])
        else [])) := by
    unfold pushRepoTrace
    rw [if_pos hgit]
  constructor
  · intro hc
    have hce : (commitRepoEffects env rep).1 =
        [Effect.gitCall rep (str "diff-index") (str "--name-only HEAD"),
         Effect.gitCall rep (str "commit")
           (commitOptions env.dryRun
             (str "git cat: updating " ++ (env.run rep (str "diff-index")).output))] := by
      simp [commitRepoEffects, hc]
    refine ⟨?_, ?_, ?_⟩
    · rw [htr, hce]
      simp [checkRepo]
    · exact containsStr_of_startsWith rfl
    · intro opts i hi
      rw [htr, hce] at hi
      have d1 : ¬ str "rev-parse" = str "push" := by decide
      have d2 : ¬ str "diff-index" = str "push" := by decide
      have d3 : ¬ str "commit" = str "push" := by decide
      match i with
      | 0 => simp [checkRepo, d1] at hi
      | 1 => simp [d2] at hi
      | 2 => simp [d3] at hi
      | n + 3 => omega
  · intro hnc opts hmem
    have hce : (commitRepoEffects env rep).1 =
        [Effect.gitCall rep (str "diff-index") (str "--name-only HEAD")] := by
      simp [commitRepoEffects, hnc]
    rw [htr, hce] at hmem
    have d1 : ¬ str "commit" = str "rev-parse" := by decide
    have d2 : ¬ str "commit" = str "diff-index" := by decide
    have d3 : ¬ str "commit" = str "for-each-ref" := by decide
    have d4 : ¬ str "commit" = str "push" := by decide
    split_ifs at hmem <;> simp [checkRepo, d1, d2, d3, d4] at hmem

/-- Witness for claim C6: the theorem applied to the concrete environment envW,
whose diff-index succeeds with output "f". -/
theorem push_autocommit_before_push_witness :
    (pushRepoTrace envW (str "r")).take 3 =
      [checkRepo (str "r"),
       Effect.gitCall (str "r") (str "diff-index") (str "--name-only HEAD"),
       Effect.gitCall (str "r") (str "commit")
         (commitOptions envW.dryRun
           (str "git cat: updating " ++ (envW.run (str "r") (str "diff-index")).output))] :=
  ((push_autocommit_before_push envW (str "r") rfl).1 (by decide)).1

-- ## Claim C10

/-- Claim C10: with the dry-run option set, push modifies no repository:
`git push` is never executed for any repository, and every `git commit`
the auto-commit step runs carries the --porcelain option (which implies
--dry-run for git commit), so no commit is created either. -/
theorem dry_run_push_no_push_and_porcelain (env : Env) (rep : Str)
    (hdry : env.dryRun = true) :
    (∀ opts, Effect.gitCall rep (str "push") opts ∉ pushRepoTrace env rep) ∧
    (∀ opts, Effect.gitCall rep (str "commit") opts ∈ pushRepoTrace env rep →
      containsStr (str " --porcelain") opts = true) := by
  have d1 : ¬ str "push" = str "rev-parse" := by decide
  have d2 : ¬ str "push" = str "diff-index" := by decide
  have d3 : ¬ str "push" = str "commit" := by decide
  have d4 : ¬ str "push" = str "for-each-ref" := by decide
  have e1 : ¬ str "commit" = str "rev-parse" := by decide
  have e2 : ¬ str "commit" = str "diff-index" := by decide
  have e3 : ¬ str "commit" = str "for-each-ref" := by decide
  have e4 : ¬ str "commit" = str "push" := by decide
  constructor
  · intro opts hmem
    simp only [pushRepoTrace, commitRepoEffects, checkRepo] at hmem
    split_ifs at hmem <;> simp_all [d1, d2, d3, d4]
  · intro opts hmem
    simp only [pushRepoTrace, commitRepoEffects, checkRepo] at hmem
    split_ifs at hmem <;>
      simp_all [e1, e2, e3, e4, commitOptions] <;>
      (simp only [← List.append_assoc]; exact containsStr_append_right _ _)

/-- Witness for claim C10: the theorem applied to a concrete dry-run
environment. -/
def envDry : Env :=
  ⟨fun _ => true, fun _ _ => ⟨true, str "f"⟩, true, false, str "r",
   ⟨true, str "u"⟩, false, false⟩

theorem dry_run_push_no_push_and_porcelain_witness :
    Effect.gitCall (str "r") (str "push") (str "--porcelain --follow-tags") ∉
      pushRepoTrace envDry (str "r") :=
  (dry_run_push_no_push_and_porcelain envDry (str "r") rfl).1
    (str "--porcelain --follow-tags")
